import Mathlib

/-!
# Verification of the stablecoin Boltzmann wealth model

A shallow embedding of `src/stablecoin/model.py`: agents on a toroidal
`MultiGrid` move to a random Moore neighbor each tick and transfer
`min(balance, XFER_AMOUNT)` of an ERC20-style token to a random co-located
agent.  Randomness (`random.choice`, placement, activation order) is made
explicit: every random draw is a parameter (a choice index reduced modulo
the candidate-list length, matching `random.choice`'s uniform index draw;
the per-tick activation order is a parameter list).  Balances live in a
ledger map `Nat → Nat` (wallet `i` belongs to agent `i`); the ERC20
`transfer` is the usual debit-then-credit update.  Amounts are `Nat`
(uint256 overflow is unreachable at the amounts involved); display wealth
and the Gini metric are exact rationals standing for Python floats.
-/

/-- `XFER_AMOUNT = 10**18` from `model.py`. -/
def XFER_AMOUNT : Nat := 10 ^ 18

/-- `INITIAL_BALANCE = 10**18` from `model.py`. -/
def INITIAL_BALANCE : Nat := 10 ^ 18

/-- A grid coordinate `(x, y)`. -/
structure Pos where
  x : Nat
  y : Nat
deriving DecidableEq, Repr

/-- The mutable simulation state: grid geometry, each agent's position,
the ledger's balance map, and the collected Gini series (`none` records a
`ZeroDivisionError` raised during collection). -/
structure ModelState where
  numAgents : Nat
  width : Nat
  height : Nat
  pos : Nat → Pos
  balance : Nat → Nat
  giniHistory : List (Option ℚ)

/-- Python's wrapping index arithmetic used by Mesa's torus adjustment:
reduce an integer coordinate modulo the grid dimension. -/
def torusAdj (w : Nat) (z : Int) : Nat := (z % (w : Int)).toNat

/-- The eight Moore offsets, center `(0,0)` excluded. -/
def mooreOffsets : List (Int × Int) :=
  [(-1, -1), (0, -1), (1, -1), (-1, 0), (1, 0), (-1, 1), (0, 1), (1, 1)]

/-- `grid.get_neighborhood(pos, moore=True, include_center=False)` on the
torus grid `MultiGrid(width, height, True)`: the eight Moore offsets,
wrapped at the edges. -/
def mooreNeighborhood (w h : Nat) (p : Pos) : List Pos :=
  mooreOffsets.map fun d => ⟨torusAdj w ((p.x : Int) + d.1), torusAdj h ((p.y : Int) + d.2)⟩

/-- Solmate ERC20 `transfer(to, amount)` called by `caller`: debit the
caller, then credit the recipient (a self-transfer is a no-op). -/
def transfer (bal : Nat → Nat) (dest amount caller : Nat) : Nat → Nat :=
  let bal1 := Function.update bal caller (bal caller - amount)
  Function.update bal1 dest (bal1 dest + amount)

/-- `grid.get_cell_list_contents([p])`: the agents currently at cell `p`
(agents are identified by their sequential ids `0 .. numAgents-1`). -/
def occupants (s : ModelState) (p : Pos) : List Nat :=
  (List.range s.numAgents).filter fun b => s.pos b = p

namespace MoneyAgent

/-- `MoneyAgent.move`: choose one cell of the Moore neighborhood of the
current position (uniform draw modelled by the index `c % 8`) and move
there. -/
def move (s : ModelState) (a : Nat) (c : Nat) : ModelState :=
  let possible_steps := mooreNeighborhood s.width s.height (s.pos a)
  let new_position := possible_steps.getD (c % possible_steps.length) (s.pos a)
  { s with pos := Function.update s.pos a new_position }

/-- `MoneyAgent.give_money(amount)`: list the cellmates at the current
cell, drop self (`cellmates.pop(cellmates.index(self))`), and if anyone
remains transfer `amount` to a uniformly chosen one. -/
def give_money (s : ModelState) (a : Nat) (amount : Nat) (c : Nat) : ModelState :=
  let cellmates := (occupants s (s.pos a)).erase a
  if 0 < cellmates.length then
    let other := cellmates.getD (c % cellmates.length) 0
    { s with balance := transfer s.balance other amount a }
  else s

/-- `MoneyAgent.step`: move, re-query the raw balance, and if it is
positive give away `amount` capped at `XFER_AMOUNT`. -/
def step (s : ModelState) (a : Nat) (cMove cGive : Nat) : ModelState :=
  let s1 := move s a cMove
  let amt := s1.balance a
  if 0 < amt then
    if amt < XFER_AMOUNT then give_money s1 a amt cGive
    else give_money s1 a XFER_AMOUNT cGive
  else s1

end MoneyAgent

/-- `compute_gini` of `model.py`, abstracted over the wealth list it reads
from the agents: sort ascending, form `B = (Σ x[i]*(N-i)) / (N * Σx)` and
return `1 + 1/N - 2B`; the unguarded Python division raises
`ZeroDivisionError` when `N * Σx == 0`, modelled by `none`. -/
def compute_gini (N : Nat) (wealths : List ℚ) : Option ℚ :=
  let x := wealths.mergeSort
  if (N : ℚ) * x.sum = 0 then none
  else some (1 + 1 / (N : ℚ) - 2 * (giniSum N 0 x / ((N : ℚ) * x.sum)))
where
  /-- `sum(xi * (N - i) for i, xi in enumerate(x))`, started at index `i`. -/
  giniSum (N : Nat) : Nat → List ℚ → ℚ
    | _, [] => 0
    | i, xi :: rest => xi * ((N : ℚ) - (i : ℚ)) + giniSum N (i + 1) rest

/-- The wealth list `[agent.wealth for agent in model.schedule.agents]`:
raw balances divided by `10^18` for readability, in agent-id order. -/
def wealthList (s : ModelState) : List ℚ :=
  (List.range s.numAgents).map fun a => (s.balance a : ℚ) / 10 ^ 18

/-- `compute_gini(model)` as the data collector invokes it. -/
def modelGini (s : ModelState) : Option ℚ :=
  compute_gini s.numAgents (wealthList s)

/-- `BoltzmannWealthModelNetwork.__init__`: mint `INITIAL_BALANCE` to each
of the `numAgents` wallets, place the agents (the random placements are
the parameter `place`), then collect once. -/
def initState (numAgents width height : Nat) (place : Nat → Pos) : ModelState :=
  let s0 : ModelState :=
    { numAgents := numAgents
      width := width
      height := height
      pos := place
      balance := fun a => if a < numAgents then INITIAL_BALANCE else 0
      giniHistory := [] }
  { s0 with giniHistory := [modelGini s0] }

/-- One scheduled activation: the agent's id and its two random draws. -/
structure AgentInput where
  agentId : Nat
  moveChoice : Nat
  giveChoice : Nat
deriving DecidableEq, Repr

/-- `BoltzmannWealthModelNetwork.step`: activate every agent once in the
tick's random order (the parameter `order`), then collect. -/
def model_step (s : ModelState) (order : List AgentInput) : ModelState :=
  let s1 := order.foldl (fun st i => MoneyAgent.step st i.agentId i.moveChoice i.giveChoice) s
  { s1 with giniHistory := s1.giniHistory ++ [modelGini s1] }

/-- `run_model(n)`: perform one tick per entry of `ticks`. -/
def run_model (s : ModelState) : List (List AgentInput) → ModelState
  | [] => s
  | t :: ts => run_model (model_step s t) ts

/-- Total ledger balance over the agents' wallets. -/
def totalBalance (s : ModelState) : Nat :=
  ∑ a ∈ Finset.range s.numAgents, s.balance a

/-! ## Preservation lemmas -/

lemma give_money_numAgents (s : ModelState) (a amount c : Nat) :
    (MoneyAgent.give_money s a amount c).numAgents = s.numAgents := by
  simp only [MoneyAgent.give_money]
  split <;> rfl

lemma give_money_giniHistory (s : ModelState) (a amount c : Nat) :
    (MoneyAgent.give_money s a amount c).giniHistory = s.giniHistory := by
  simp only [MoneyAgent.give_money]
  split <;> rfl

lemma step_numAgents (s : ModelState) (a cm cg : Nat) :
    (MoneyAgent.step s a cm cg).numAgents = s.numAgents := by
  simp only [MoneyAgent.step]
  split
  · split <;> rw [give_money_numAgents] <;> rfl
  · rfl

lemma step_giniHistory (s : ModelState) (a cm cg : Nat) :
    (MoneyAgent.step s a cm cg).giniHistory = s.giniHistory := by
  simp only [MoneyAgent.step]
  split
  · split <;> rw [give_money_giniHistory] <;> rfl
  · rfl

lemma foldl_step_giniHistory (order : List AgentInput) (s : ModelState) :
    (order.foldl (fun st i => MoneyAgent.step st i.agentId i.moveChoice i.giveChoice) s).giniHistory
      = s.giniHistory := by
  induction order generalizing s with
  | nil => rfl
  | cons i rest ih => rw [List.foldl_cons, ih, step_giniHistory]

lemma foldl_step_numAgents (order : List AgentInput) (s : ModelState) :
    (order.foldl (fun st i => MoneyAgent.step st i.agentId i.moveChoice i.giveChoice) s).numAgents
      = s.numAgents := by
  induction order generalizing s with
  | nil => rfl
  | cons i rest ih => rw [List.foldl_cons, ih, step_numAgents]

lemma model_step_giniHistory (s : ModelState) (order : List AgentInput) :
    (model_step s order).giniHistory = s.giniHistory ++ [modelGini
      (order.foldl (fun st i => MoneyAgent.step st i.agentId i.moveChoice i.giveChoice) s)] := by
  simp only [model_step]
  rw [foldl_step_giniHistory]

lemma model_step_numAgents (s : ModelState) (order : List AgentInput) :
    (model_step s order).numAgents = s.numAgents := by
  simp only [model_step]
  rw [foldl_step_numAgents]

lemma run_model_history_length (ticks : List (List AgentInput)) (s : ModelState) :
    (run_model s ticks).giniHistory.length = s.giniHistory.length + ticks.length := by
  induction ticks generalizing s with
  | nil => rfl
  | cons t ts ih =>
      rw [run_model, ih, model_step_giniHistory]
      simp
      omega

/-! ## The claims -/

/-- C8: `run_model(n)` invokes the tick exactly once per supplied tick
input, in sequence, and nothing else; a zero-tick run is the identity on
the whole state, so a run of ten ticks followed by a zero-tick run equals
the ten-tick run alone. -/
theorem run_model_spec (s : ModelState) (ticks : List (List AgentInput)) :
    run_model s ticks = ticks.foldl model_step s ∧
    run_model s [] = s ∧
    run_model (run_model s ticks) [] = run_model s ticks := by
  refine ⟨?_, rfl, rfl⟩
  induction ticks generalizing s with
  | nil => rfl
  | cons t ts ih => rw [run_model, ih, List.foldl_cons]

/-- C10: the data collector runs once during construction, before any
tick, so after an `n`-tick run the Gini history has `n + 1` entries. -/
theorem history_length_spec (n w h : Nat) (place : Nat → Pos)
    (ticks : List (List AgentInput)) :
    (initState n w h place).giniHistory.length = 1 ∧
    (run_model (initState n w h place) ticks).giniHistory.length = ticks.length + 1 := by
  constructor
  · rfl
  · rw [run_model_history_length]
    simp [initState]
    omega

/-- C4: zero total wealth makes `compute_gini` divide by zero — it signals
the error (returns no value) for every population size `N ≥ 1`. -/
theorem gini_zero_wealth_error (N : Nat) (w : List ℚ) (hN : 1 ≤ N)
    (hsum : w.sum = 0) : compute_gini N w = none := by
  have hms : (w.mergeSort).sum = 0 := by
    rw [(List.mergeSort_perm w _).sum_eq, hsum]
  simp [compute_gini, hms]

/-- Witness for C4: one agent with zero wealth. -/
theorem gini_zero_wealth_error_witness :
    1 ≤ 1 ∧ ([(0 : ℚ)]).sum = 0 ∧ compute_gini 1 [0] = none :=
  ⟨le_refl 1, by simp, gini_zero_wealth_error 1 [0] (le_refl 1) (by simp)⟩

lemma give_money_of_alone (s : ModelState) (a amount c : Nat)
    (h : (occupants s (s.pos a)).erase a = []) :
    MoneyAgent.give_money s a amount c = s := by
  simp only [MoneyAgent.give_money, h]
  rfl

/-- C7: an agent alone in its cell after moving performs no transfer that
tick: its whole step equals the move alone, and no balance changes. -/
theorem alone_no_transfer (s : ModelState) (a cMove cGive : Nat)
    (halone : (occupants (MoneyAgent.move s a cMove)
      ((MoneyAgent.move s a cMove).pos a)).erase a = []) :
    MoneyAgent.step s a cMove cGive = MoneyAgent.move s a cMove ∧
    (MoneyAgent.step s a cMove cGive).balance = s.balance := by
  have hstep : MoneyAgent.step s a cMove cGive = MoneyAgent.move s a cMove := by
    simp only [MoneyAgent.step]
    split
    · split <;> exact give_money_of_alone _ _ _ _ halone
    · rfl
  exact ⟨hstep, by rw [hstep]; rfl⟩

/-- Witness for C7: a single agent is always alone after its move. -/
theorem alone_no_transfer_witness :
    MoneyAgent.step (initState 1 3 3 fun _ => ⟨0, 0⟩) 0 0 0 =
      MoneyAgent.move (initState 1 3 3 fun _ => ⟨0, 0⟩) 0 0 ∧
    (MoneyAgent.step (initState 1 3 3 fun _ => ⟨0, 0⟩) 0 0 0).balance =
      (initState 1 3 3 fun _ => ⟨0, 0⟩).balance :=
  alone_no_transfer (initState 1 3 3 fun _ => ⟨0, 0⟩) 0 0 0 (by decide)

lemma mooreNeighborhood_length (w h : Nat) (p : Pos) :
    (mooreNeighborhood w h p).length = 8 := by
  simp [mooreNeighborhood, mooreOffsets]

lemma getD_mem_of_pos {l : List Nat} {c : Nat} (h : 0 < l.length) :
    l.getD (c % l.length) 0 ∈ l := by
  rw [List.getD_eq_getElem l 0 (Nat.mod_lt c h)]
  exact List.getElem_mem _

/-- C1: each `step()` is exactly two phases in order.  First the move: the
new position is drawn from the Moore neighborhood of the current cell
(center excluded).  Then the give: the raw balance is re-queried, a zero
balance does nothing, and otherwise exactly `min(balance, XFER_AMOUNT)` is
transferred by `give_money`, which sends to a uniformly chosen occupant of
the new cell other than the agent itself, provided one exists. -/
theorem step_two_phase_spec (s : ModelState) (a cMove cGive : Nat) :
    (MoneyAgent.step s a cMove cGive =
      (if (MoneyAgent.move s a cMove).balance a = 0 then MoneyAgent.move s a cMove
       else MoneyAgent.give_money (MoneyAgent.move s a cMove) a
         (min ((MoneyAgent.move s a cMove).balance a) XFER_AMOUNT) cGive)) ∧
    (MoneyAgent.move s a cMove).pos a ∈ mooreNeighborhood s.width s.height (s.pos a) ∧
    (∀ amount c, (occupants s (s.pos a)).erase a ≠ [] →
      ∃ other ∈ (occupants s (s.pos a)).erase a,
        MoneyAgent.give_money s a amount c =
          { s with balance := transfer s.balance other amount a }) := by
  refine ⟨?_, ?_, ?_⟩
  · simp only [MoneyAgent.step]
    rcases Nat.eq_zero_or_pos ((MoneyAgent.move s a cMove).balance a) with h0 | hpos
    · simp [h0]
    · have hne : ¬ (MoneyAgent.move s a cMove).balance a = 0 := Nat.pos_iff_ne_zero.mp hpos
      rw [if_pos hpos, if_neg hne]
      rcases Nat.lt_or_ge ((MoneyAgent.move s a cMove).balance a) XFER_AMOUNT with hlt | hge
      · rw [if_pos hlt, Nat.min_eq_left (Nat.le_of_lt hlt)]
      · rw [if_neg (Nat.not_lt.mpr hge), Nat.min_eq_right hge]
  · simp only [MoneyAgent.move, Function.update_same]
    have hlen : 0 < (mooreNeighborhood s.width s.height (s.pos a)).length := by
      rw [mooreNeighborhood_length]; omega
    rw [List.getD_eq_getElem _ _ (Nat.mod_lt cMove hlen)]
    exact List.getElem_mem _
  · intro amount c hne
    have hlen : 0 < ((occupants s (s.pos a)).erase a).length :=
      List.length_pos.mpr hne
    refine ⟨((occupants s (s.pos a)).erase a).getD
      (c % ((occupants s (s.pos a)).erase a).length) 0, getD_mem_of_pos hlen, ?_⟩
    simp only [MoneyAgent.give_money, if_pos hlen]

/-- Witness for C1: two agents share a cell, so the give phase of the
first finds a recipient. -/
theorem step_two_phase_spec_witness :
    ∃ other ∈ (occupants (initState 2 3 3 fun _ => ⟨1, 1⟩)
        ((initState 2 3 3 fun _ => ⟨1, 1⟩).pos 0)).erase 0,
      MoneyAgent.give_money (initState 2 3 3 fun _ => ⟨1, 1⟩) 0 5 0 =
        { initState 2 3 3 fun _ => ⟨1, 1⟩ with
            balance := transfer (initState 2 3 3 fun _ => ⟨1, 1⟩).balance other 5 0 } :=
  (step_two_phase_spec (initState 2 3 3 fun _ => ⟨1, 1⟩) 0 0 0).2.2 5 0 (by decide)

/-! ## Supply conservation -/

lemma transfer_sum (bal : Nat → Nat) (dest amount caller n : Nat)
    (hd : dest < n) (hc : caller < n) (ha : amount ≤ bal caller) :
    ∑ b ∈ Finset.range n, transfer bal dest amount caller b
      = ∑ b ∈ Finset.range n, bal b := by
  by_cases hdc : dest = caller
  · subst hdc
    have hfun : transfer bal dest amount dest = bal := by
      funext b
      by_cases hb : b = dest
      · subst hb
        simp only [transfer, Function.update_same]
        omega
      · simp only [transfer, Function.update_noteq hb]
    rw [hfun]
  · have hdm : dest ∈ Finset.range n := Finset.mem_range.mpr hd
    have hcm : caller ∈ Finset.range n \ {dest} := by
      rw [Finset.mem_sdiff, Finset.mem_singleton]
      exact ⟨Finset.mem_range.mpr hc, Ne.symm hdc⟩
    have hstep1 : transfer bal dest amount caller =
        Function.update (Function.update bal caller (bal caller - amount)) dest
          (bal dest + amount) := by
      simp only [transfer]
      rw [Function.update_noteq hdc]
    rw [hstep1, Finset.sum_update_of_mem hdm, Finset.sum_update_of_mem hcm,
      ← Finset.add_sum_erase _ bal hdm, Finset.erase_eq,
      ← Finset.add_sum_erase _ bal hcm, Finset.erase_eq]
    omega

lemma give_money_totalBalance (s : ModelState) (a amount c : Nat)
    (ha : a < s.numAgents) (hamt : amount ≤ s.balance a) :
    totalBalance (MoneyAgent.give_money s a amount c) = totalBalance s := by
  simp only [MoneyAgent.give_money]
  split
  · next hlen =>
      have hmem := getD_mem_of_pos (l := (occupants s (s.pos a)).erase a) (c := c) hlen
      have hother : ((occupants s (s.pos a)).erase a).getD
          (c % ((occupants s (s.pos a)).erase a).length) 0 < s.numAgents := by
        have h1 := List.mem_of_mem_erase hmem
        have h2 := (List.mem_filter.mp h1).1
        exact List.mem_range.mp h2
      simp only [totalBalance]
      exact transfer_sum s.balance _ amount a s.numAgents hother ha hamt
  · rfl

lemma step_totalBalance (s : ModelState) (a cm cg : Nat) (ha : a < s.numAgents) :
    totalBalance (MoneyAgent.step s a cm cg) = totalBalance s := by
  have ha' : a < (MoneyAgent.move s a cm).numAgents := ha
  simp only [MoneyAgent.step]
  split
  · split
    · rw [give_money_totalBalance _ _ _ _ ha' (le_refl _)]
      rfl
    · next hnlt =>
        rw [give_money_totalBalance _ _ _ _ ha' (Nat.not_lt.mp hnlt)]
        rfl
  · rfl

lemma foldl_step_totalBalance (order : List AgentInput) (s : ModelState)
    (h : ∀ i ∈ order, i.agentId < s.numAgents) :
    totalBalance
      (order.foldl (fun st i => MoneyAgent.step st i.agentId i.moveChoice i.giveChoice) s)
      = totalBalance s := by
  induction order generalizing s with
  | nil => rfl
  | cons i rest ih =>
      rw [List.foldl_cons]
      have hrest : ∀ j ∈ rest,
          j.agentId < (MoneyAgent.step s i.agentId i.moveChoice i.giveChoice).numAgents := by
        intro j hj
        rw [step_numAgents]
        exact h j (List.mem_cons_of_mem i hj)
      rw [ih _ hrest, step_totalBalance _ _ _ _ (h i (List.mem_cons_self i rest))]

lemma model_step_totalBalance (s : ModelState) (order : List AgentInput)
    (h : ∀ i ∈ order, i.agentId < s.numAgents) :
    totalBalance (model_step s order) = totalBalance s := by
  simp only [model_step]
  exact foldl_step_totalBalance order s h

lemma run_model_totalBalance (ticks : List (List AgentInput)) (s : ModelState)
    (h : ∀ t ∈ ticks, ∀ i ∈ t, i.agentId < s.numAgents) :
    totalBalance (run_model s ticks) = totalBalance s := by
  induction ticks generalizing s with
  | nil => rfl
  | cons t ts ih =>
      rw [run_model]
      have h1 : ∀ t' ∈ ts, ∀ i ∈ t', i.agentId < (model_step s t).numAgents := by
        intro t' ht' i hi
        rw [model_step_numAgents]
        exact h t' (List.mem_cons_of_mem t ht') i hi
      rw [ih _ h1, model_step_totalBalance s t (h t (List.mem_cons_self t ts))]

lemma initState_totalBalance (n w h : Nat) (place : Nat → Pos) :
    totalBalance (initState n w h place) = n * INITIAL_BALANCE := by
  simp only [initState, totalBalance]
  have hcongr : ∑ a ∈ Finset.range n, (if a < n then INITIAL_BALANCE else 0)
      = ∑ _a ∈ Finset.range n, INITIAL_BALANCE :=
    Finset.sum_congr rfl fun a ha => if_pos (Finset.mem_range.mp ha)
  rw [hcongr, Finset.sum_const, Finset.card_range, smul_eq_mul]

/-- C2: after initialization the total ledger balance over the agents'
wallets is `numAgents * INITIAL_BALANCE`, and it is conserved by any run
in which, as in the model, every scheduled activation names one of the
`numAgents` agents. -/
theorem supply_conserved (n w h : Nat) (place : Nat → Pos)
    (ticks : List (List AgentInput))
    (hord : ∀ t ∈ ticks, ∀ i ∈ t, i.agentId < n) :
    totalBalance (initState n w h place) = n * INITIAL_BALANCE ∧
    totalBalance (run_model (initState n w h place) ticks) = n * INITIAL_BALANCE := by
  refine ⟨initState_totalBalance n w h place, ?_⟩
  rw [run_model_totalBalance ticks _ ?_, initState_totalBalance]
  intro t ht i hi
  exact hord t ht i hi

/-- Witness for C2: two agents, one tick activating both. -/
theorem supply_conserved_witness :
    totalBalance (initState 2 3 3 fun _ => ⟨0, 0⟩) = 2 * INITIAL_BALANCE ∧
    totalBalance (run_model (initState 2 3 3 fun _ => ⟨0, 0⟩)
      [[⟨0, 0, 0⟩, ⟨1, 0, 0⟩]]) = 2 * INITIAL_BALANCE :=
  supply_conserved 2 3 3 (fun _ => ⟨0, 0⟩) [[⟨0, 0, 0⟩, ⟨1, 0, 0⟩]] (by decide)

/-! ## Gini formula: sum conversions -/

lemma giniSum_eq_finset (N : Nat) (i0 : Nat) (l : List ℚ) :
    compute_gini.giniSum N i0 l
      = ∑ j ∈ Finset.range l.length, l.getD j 0 * ((N : ℚ) - ((i0 + j : ℕ) : ℚ)) := by
  induction l generalizing i0 with
  | nil => simp [compute_gini.giniSum]
  | cons a rest ih =>
      simp only [compute_gini.giniSum, List.length_cons]
      rw [Finset.sum_range_succ', ih]
      have hc : ∀ j ∈ Finset.range rest.length,
          rest.getD j 0 * ((N : ℚ) - (((i0 + 1) + j : ℕ) : ℚ))
            = (a :: rest).getD (j + 1) 0 * ((N : ℚ) - ((i0 + (j + 1) : ℕ) : ℚ)) := by
        intro j _
        have hidx : (i0 + 1) + j = i0 + (j + 1) := by omega
        rw [List.getD_cons_succ, hidx]
      rw [Finset.sum_congr rfl hc, List.getD_cons_zero]
      push_cast
      ring

lemma giniSum_zero_eq (N : Nat) (l : List ℚ) :
    compute_gini.giniSum N 0 l
      = ∑ j ∈ Finset.range l.length, l.getD j 0 * ((N : ℚ) - (j : ℚ)) := by
  rw [giniSum_eq_finset]
  exact Finset.sum_congr rfl fun j _ => by norm_num

lemma list_sum_eq_finset (l : List ℚ) :
    l.sum = ∑ j ∈ Finset.range l.length, l.getD j 0 := by
  induction l with
  | nil => simp
  | cons a rest ih =>
      simp only [List.sum_cons, List.length_cons]
      rw [Finset.sum_range_succ', ih]
      simp only [List.getD_cons_succ, List.getD_cons_zero]
      ring

lemma giniSum_append (N : Nat) (i0 : Nat) (l1 l2 : List ℚ) :
    compute_gini.giniSum N i0 (l1 ++ l2)
      = compute_gini.giniSum N i0 l1 + compute_gini.giniSum N (i0 + l1.length) l2 := by
  induction l1 generalizing i0 with
  | nil => simp [compute_gini.giniSum]
  | cons a rest ih =>
      have hidx : (i0 + 1) + rest.length = i0 + (rest.length + 1) := by omega
      simp only [List.cons_append, compute_gini.giniSum, List.length_cons, List.append_eq]
      rw [ih, hidx, add_assoc]

lemma giniSum_replicate_zero (N k : Nat) (i0 : Nat) :
    compute_gini.giniSum N i0 (List.replicate k (0 : ℚ)) = 0 := by
  induction k generalizing i0 with
  | zero => simp [compute_gini.giniSum]
  | succ n ih => rw [List.replicate_succ]; simp [compute_gini.giniSum, ih]

lemma sum_range_cast (N : Nat) :
    ∑ j ∈ Finset.range N, (j : ℚ) = (N : ℚ) * ((N : ℚ) - 1) / 2 := by
  induction N with
  | zero => simp
  | succ n ih =>
      rw [Finset.sum_range_succ, ih]
      push_cast
      ring

lemma sum_range_rev_cast (N : Nat) :
    ∑ j ∈ Finset.range N, ((N : ℚ) - (j : ℚ)) = (N : ℚ) * ((N : ℚ) + 1) / 2 := by
  rw [Finset.sum_sub_distrib, Finset.sum_const, Finset.card_range, sum_range_cast,
    nsmul_eq_mul]
  ring

lemma sum_le_giniSum (N : Nat) (x : List ℚ) (hlen : x.length = N)
    (hnn : ∀ q ∈ x, 0 ≤ q) :
    x.sum ≤ compute_gini.giniSum N 0 x := by
  rw [giniSum_zero_eq, list_sum_eq_finset, hlen]
  apply Finset.sum_le_sum
  intro j hj
  have hjN : j < N := Finset.mem_range.mp hj
  have hjx : j < x.length := by omega
  have hq : 0 ≤ x.getD j 0 := by
    apply hnn
    rw [List.getD_eq_getElem x 0 hjx]
    exact List.getElem_mem _
  have hw : (1 : ℚ) ≤ (N : ℚ) - (j : ℚ) := by
    have h1 : j + 1 ≤ N := hjN
    have h2 : ((j : ℚ) + 1) ≤ (N : ℚ) := by exact_mod_cast h1
    linarith
  calc x.getD j 0 = x.getD j 0 * 1 := by ring
    _ ≤ x.getD j 0 * ((N : ℚ) - (j : ℚ)) := mul_le_mul_of_nonneg_left hw hq

lemma giniSum_chebyshev (N : Nat) (x : List ℚ) (hlen : x.length = N)
    (hsorted : List.Sorted (· ≤ ·) x) :
    (N : ℚ) * compute_gini.giniSum N 0 x
      ≤ x.sum * ((N : ℚ) * ((N : ℚ) + 1) / 2) := by
  have hanti : AntivaryOn (fun j => x.getD j 0) (fun j => (N : ℚ) - (j : ℚ))
      (↑(Finset.range N) : Set ℕ) := by
    intro i hi j hj hg
    have hiN : i < N := by simpa using hi
    have hjN : j < N := by simpa using hj
    have hji : j < i := by
      simp only at hg
      have hij : (j : ℚ) < (i : ℚ) := by linarith
      exact_mod_cast hij
    have hix : i < x.length := by omega
    have hjx : j < x.length := by omega
    simp only
    rw [List.getD_eq_get x 0 hjx, List.getD_eq_get x 0 hix]
    exact hsorted.rel_get_of_le (Fin.mk_le_mk.mpr (Nat.le_of_lt hji))
  have hcheb := hanti.card_mul_sum_le_sum_mul_sum
  rw [Finset.card_range, sum_range_rev_cast] at hcheb
  rw [giniSum_zero_eq, list_sum_eq_finset, hlen]
  exact hcheb

/-- The reference Gini formula, transcribed from the spec (§4.4 Metrics
Collector): sort ascending into `x[0..N-1]`, compute
`B = (Σ x[i]*(N-i)) / (N * Σx)`, return `1 + 1/N − 2B`. -/
def computeGiniRef (N : Nat) (wealths : List ℚ) : ℚ :=
  let x := wealths.mergeSort
  let B := compute_gini.giniSum N 0 x / ((N : ℚ) * x.sum)
  1 + 1 / (N : ℚ) - 2 * B

/-- C3: on `N` non-negative wealths with nonzero sum, `compute_gini`
returns exactly the spec's reference formula, and the value is in
`[0, 1]`. -/
theorem compute_gini_formula_and_range (N : Nat) (w : List ℚ)
    (hlen : w.length = N) (hnn : ∀ q ∈ w, 0 ≤ q) (hsum : w.sum ≠ 0) :
    compute_gini N w = some (computeGiniRef N w) ∧
    0 ≤ computeGiniRef N w ∧ computeGiniRef N w ≤ 1 := by
  set x := w.mergeSort with hx
  have hperm : x.Perm w := List.mergeSort_perm w _
  have hxlen : x.length = N := by rw [hperm.length_eq, hlen]
  have hxsum : x.sum = w.sum := hperm.sum_eq
  have hxnn : ∀ q ∈ x, 0 ≤ q := fun q hq => hnn q (hperm.mem_iff.mp hq)
  have hsorted : List.Sorted (· ≤ ·) x := List.sorted_mergeSort' w
  have hN : 0 < N := by
    rcases Nat.eq_zero_or_pos N with h0 | h
    · exfalso
      apply hsum
      have hwnil : w = [] := List.eq_nil_of_length_eq_zero (by omega)
      simp [hwnil]
    · exact h
  have hn : (0 : ℚ) < (N : ℚ) := by exact_mod_cast hN
  have hS : 0 < x.sum := by
    rcases eq_or_lt_of_le (List.sum_nonneg hxnn) with h0 | h
    · exact absurd (hxsum ▸ h0.symm) hsum
    · exact h
  have hns : (0 : ℚ) < (N : ℚ) * x.sum := mul_pos hn hS
  have hdenom : (N : ℚ) * x.sum ≠ 0 := ne_of_gt hns
  have heq : compute_gini N w = some (computeGiniRef N w) := by
    simp only [compute_gini, computeGiniRef]
    rw [← hx, if_neg hdenom]
  have hG : computeGiniRef N w
      = 1 + 1 / (N : ℚ) - 2 * (compute_gini.giniSum N 0 x / ((N : ℚ) * x.sum)) := by
    simp only [computeGiniRef]
  have hTS : x.sum ≤ compute_gini.giniSum N 0 x := sum_le_giniSum N x hxlen hxnn
  have hcheb := giniSum_chebyshev N x hxlen hsorted
  refine ⟨heq, ?_, ?_⟩
  · rw [hG]
    have h2 : 2 * (compute_gini.giniSum N 0 x / ((N : ℚ) * x.sum))
        ≤ 1 + 1 / (N : ℚ) := by
      rw [← mul_div_assoc, div_le_iff hns]
      have hexp : (1 + 1 / (N : ℚ)) * ((N : ℚ) * x.sum)
          = ((N : ℚ) + 1) * x.sum := by
        field_simp
        ring
      rw [hexp]
      nlinarith [hcheb]
    linarith
  · rw [hG]
    have h4 : 2 / (N : ℚ) ≤ 2 * (compute_gini.giniSum N 0 x / ((N : ℚ) * x.sum)) := by
      rw [← mul_div_assoc, div_le_div_iff hn hns]
      have h5 := mul_le_mul_of_nonneg_left hTS (le_of_lt hn)
      nlinarith [h5]
    have h6 : 0 ≤ 1 / (N : ℚ) := by positivity
    have h7 : 2 / (N : ℚ) = 2 * (1 / (N : ℚ)) := by ring
    linarith

/-- Witness for C3: the wealths `[1, 2, 3]`. -/
theorem compute_gini_formula_and_range_witness :
    compute_gini 3 [1, 2, 3] = some (computeGiniRef 3 [1, 2, 3]) ∧
    0 ≤ computeGiniRef 3 [1, 2, 3] ∧ computeGiniRef 3 [1, 2, 3] ≤ 1 :=
  compute_gini_formula_and_range 3 [1, 2, 3] rfl
    (by intro q hq; fin_cases hq <;> norm_num) (by norm_num)

lemma sorted_replicate (N : Nat) (W : ℚ) :
    List.Sorted (· ≤ ·) (List.replicate N W) :=
  List.pairwise_replicate.mpr (Or.inr le_rfl)

lemma giniSum_replicate (N : Nat) (W : ℚ) :
    compute_gini.giniSum N 0 (List.replicate N W)
      = W * ((N : ℚ) * ((N : ℚ) + 1) / 2) := by
  rw [giniSum_zero_eq, List.length_replicate]
  have hc : ∀ j ∈ Finset.range N,
      (List.replicate N W).getD j 0 * ((N : ℚ) - (j : ℚ))
        = W * ((N : ℚ) - (j : ℚ)) := by
    intro j hj
    have hjN : j < N := Finset.mem_range.mp hj
    rw [List.getD_eq_getElem _ 0 (by rw [List.length_replicate]; exact hjN),
      List.getElem_replicate]
  rw [Finset.sum_congr rfl hc, ← Finset.mul_sum, sum_range_rev_cast]

/-- C5: a uniform wealth distribution (any ordering of `N` agents with
equal wealth `W > 0`) has Gini exactly `0`. -/
theorem gini_uniform (N : Nat) (W : ℚ) (l : List ℚ) (hN : 1 ≤ N) (hW : 0 < W)
    (hl : l.Perm (List.replicate N W)) :
    compute_gini N l = some 0 := by
  have hn : (0 : ℚ) < (N : ℚ) := by exact_mod_cast hN
  have hn0 : (N : ℚ) ≠ 0 := ne_of_gt hn
  have hW0 : W ≠ 0 := ne_of_gt hW
  have hms : l.mergeSort = List.replicate N W :=
    List.eq_of_perm_of_sorted ((List.mergeSort_perm l _).trans hl)
      (List.sorted_mergeSort' l) (sorted_replicate N W)
  have hsum : (List.replicate N W).sum = (N : ℚ) * W := by
    rw [List.sum_replicate, nsmul_eq_mul]
  have hdenom : (N : ℚ) * ((N : ℚ) * W) ≠ 0 :=
    mul_ne_zero hn0 (mul_ne_zero hn0 hW0)
  simp only [compute_gini]
  rw [hms, hsum, giniSum_replicate, if_neg hdenom]
  congr 1
  field_simp
  ring

/-- Witness for C5: three agents of wealth `1`. -/
theorem gini_uniform_witness :
    compute_gini 3 (List.replicate 3 (1 : ℚ)) = some 0 :=
  gini_uniform 3 1 (List.replicate 3 1) (by norm_num) (by norm_num)
    (List.Perm.refl _)

lemma sorted_replicate_zero_append (k : Nat) (W : ℚ) (hW : 0 ≤ W) :
    List.Sorted (· ≤ ·) (List.replicate k (0 : ℚ) ++ [W]) := by
  induction k with
  | zero => simp
  | succ n ih =>
      rw [List.replicate_succ, List.cons_append, List.sorted_cons]
      refine ⟨?_, ih⟩
      intro b hb
      rcases List.mem_append.mp hb with h1 | h1
      · rw [List.eq_of_mem_replicate h1]
      · rw [List.mem_singleton.mp h1]
        exact hW

/-- C6: a maximally unequal distribution (any ordering of one agent with
wealth `W > 0` and `N - 1` agents with wealth `0`) has Gini exactly
`1 - 1/N`. -/
theorem gini_maximal (N : Nat) (W : ℚ) (l : List ℚ) (hN : 1 ≤ N) (hW : 0 < W)
    (hl : l.Perm (List.replicate (N - 1) (0 : ℚ) ++ [W])) :
    compute_gini N l = some (1 - 1 / (N : ℚ)) := by
  have hn : (0 : ℚ) < (N : ℚ) := by exact_mod_cast hN
  have hn0 : (N : ℚ) ≠ 0 := ne_of_gt hn
  have hW0 : W ≠ 0 := ne_of_gt hW
  have hms : l.mergeSort = List.replicate (N - 1) (0 : ℚ) ++ [W] :=
    List.eq_of_perm_of_sorted ((List.mergeSort_perm l _).trans hl)
      (List.sorted_mergeSort' l) (sorted_replicate_zero_append _ _ (le_of_lt hW))
  have hsum : (List.replicate (N - 1) (0 : ℚ) ++ [W]).sum = W := by
    rw [List.sum_append, List.sum_replicate, List.sum_cons, List.sum_nil]
    simp
  have hT : compute_gini.giniSum N 0 (List.replicate (N - 1) (0 : ℚ) ++ [W]) = W := by
    rw [giniSum_append, giniSum_replicate_zero, List.length_replicate]
    simp only [compute_gini.giniSum]
    have hidx : ((0 + (N - 1) : ℕ) : ℚ) = (N : ℚ) - 1 := by
      have h1 : (0 + (N - 1) : ℕ) = N - 1 := by omega
      rw [h1, Nat.cast_sub hN, Nat.cast_one]
    rw [hidx]
    ring
  have hdenom : (N : ℚ) * W ≠ 0 := mul_ne_zero hn0 hW0
  simp only [compute_gini]
  rw [hms, hsum, hT, if_neg hdenom]
  congr 1
  field_simp
  ring

/-- Witness for C6: four agents, one holding wealth `2`. -/
theorem gini_maximal_witness :
    compute_gini 4 (List.replicate 3 (0 : ℚ) ++ [2]) = some (1 - 1 / (4 : ℚ)) :=
  gini_maximal 4 2 (List.replicate 3 0 ++ [2]) (by norm_num) (by norm_num)
    (List.Perm.refl _)

/-! ## Torus geometry -/

lemma torusAdj_lt (w : Nat) (hw : 0 < w) (z : Int) : torusAdj w z < w := by
  simp only [torusAdj]
  have h2 : z % (w : Int) < (w : Int) := Int.emod_lt_of_pos z (by omega)
  omega

lemma torusAdj_self (w : Nat) (x : Nat) (hx : x < w) : torusAdj w (x : Int) = x := by
  simp only [torusAdj]
  rw [Int.emod_eq_of_lt (by omega) (by omega)]
  omega

lemma torusAdj_sub_one (w : Nat) (hw : 0 < w) (x : Nat) (hx : x < w) :
    torusAdj w ((x : Int) - 1) = if x = 0 then w - 1 else x - 1 := by
  simp only [torusAdj]
  by_cases h0 : x = 0
  · subst h0
    have key : (((0 : Nat) : Int) - 1) % (w : Int) = (w : Int) - 1 := by
      have h1 : (((0 : Nat) : Int) - 1) = ((w : Int) - 1) + (w : Int) * (-1) := by
        push_cast
        ring
      rw [h1, Int.add_mul_emod_self_left, Int.emod_eq_of_lt (by omega) (by omega)]
    rw [if_pos rfl]
    omega
  · have key : ((x : Int) - 1) % (w : Int) = (x : Int) - 1 :=
      Int.emod_eq_of_lt (by omega) (by omega)
    rw [if_neg h0]
    omega

lemma torusAdj_add_one (w : Nat) (hw : 0 < w) (x : Nat) (hx : x < w) :
    torusAdj w ((x : Int) + 1) = if x + 1 = w then 0 else x + 1 := by
  simp only [torusAdj]
  by_cases h0 : x + 1 = w
  · have key : ((x : Int) + 1) % (w : Int) = 0 := by
      have h1 : ((x : Int) + 1) = (w : Int) := by omega
      rw [h1, Int.emod_self]
    rw [if_pos h0]
    omega
  · have key : ((x : Int) + 1) % (w : Int) = (x : Int) + 1 :=
      Int.emod_eq_of_lt (by omega) (by omega)
    rw [if_neg h0]
    omega

lemma wrap_triple_distinct (w : Nat) (hw : 3 ≤ w) (x : Nat) (hx : x < w) :
    torusAdj w ((x : Int) - 1) ≠ x ∧ torusAdj w ((x : Int) + 1) ≠ x ∧
    torusAdj w ((x : Int) - 1) ≠ torusAdj w ((x : Int) + 1) := by
  rw [torusAdj_sub_one w (by omega) x hx, torusAdj_add_one w (by omega) x hx]
  split_ifs <;> omega

lemma move_pos_mem (s : ModelState) (a c : Nat) :
    (MoneyAgent.move s a c).pos a ∈ mooreNeighborhood s.width s.height (s.pos a) := by
  simp only [MoneyAgent.move, Function.update_same]
  have hlen : 0 < (mooreNeighborhood s.width s.height (s.pos a)).length := by
    rw [mooreNeighborhood_length]
    omega
  rw [List.getD_eq_getElem _ _ (Nat.mod_lt c hlen)]
  exact List.getElem_mem _

lemma mooreNeighborhood_nodup (w h : Nat) (p : Pos) (hw : 3 ≤ w) (hh : 3 ≤ h)
    (hx : p.x < w) (hy : p.y < h) : (mooreNeighborhood w h p).Nodup := by
  obtain ⟨hxm1, hxp1, hxmp⟩ := wrap_triple_distinct w hw p.x hx
  obtain ⟨hym1, hyp1, hymp⟩ := wrap_triple_distinct h hh p.y hy
  have hxz : torusAdj w (p.x : Int) = p.x := torusAdj_self w p.x hx
  have hyz : torusAdj h (p.y : Int) = p.y := torusAdj_self h p.y hy
  simp only [mooreNeighborhood, mooreOffsets, List.map_cons, List.map_nil]
  simp only [show ((p.x : Int)) + -1 = (p.x : Int) - 1 from by ring,
             show ((p.y : Int)) + -1 = (p.y : Int) - 1 from by ring,
             add_zero, hxz, hyz]
  simp only [List.nodup_cons, List.mem_cons, List.not_mem_nil, or_false,
    List.nodup_nil, and_true, not_or, Pos.mk.injEq, not_and]
  have hxm1s := Ne.symm hxm1
  have hxp1s := Ne.symm hxp1
  have hxmps := Ne.symm hxmp
  have hym1s := Ne.symm hym1
  have hyp1s := Ne.symm hyp1
  have hymps := Ne.symm hymp
  tauto

lemma mooreNeighborhood_inBounds (w h : Nat) (hw : 0 < w) (hh : 0 < h) (p : Pos) :
    ∀ q ∈ mooreNeighborhood w h p, q.x < w ∧ q.y < h := by
  intro q hq
  obtain ⟨d, _, rfl⟩ := List.mem_map.mp hq
  exact ⟨torusAdj_lt w hw _, torusAdj_lt h hh _⟩

/-- C9: the grid wraps (torus): with both dimensions at least `3`, every
cell's Moore neighborhood consists of exactly `8` distinct positions, all
of them in bounds; consequently the move phase never produces an
out-of-bounds position, so Mesa's out-of-bounds branch is unreachable. -/
theorem torus_moore_spec (w h : Nat) (p : Pos) (hw : 3 ≤ w) (hh : 3 ≤ h)
    (hx : p.x < w) (hy : p.y < h) :
    (mooreNeighborhood w h p).length = 8 ∧
    (mooreNeighborhood w h p).Nodup ∧
    (∀ q ∈ mooreNeighborhood w h p, q.x < w ∧ q.y < h) ∧
    (∀ (s : ModelState) (a c : Nat), s.width = w → s.height = h → s.pos a = p →
      ((MoneyAgent.move s a c).pos a).x < w ∧ ((MoneyAgent.move s a c).pos a).y < h) := by
  refine ⟨mooreNeighborhood_length w h p, mooreNeighborhood_nodup w h p hw hh hx hy,
    mooreNeighborhood_inBounds w h (by omega) (by omega) p, ?_⟩
  intro s a c hsw hsh hsp
  have hmem := move_pos_mem s a c
  rw [hsw, hsh, hsp] at hmem
  exact mooreNeighborhood_inBounds w h (by omega) (by omega) p _ hmem

/-- Witness for C9: the 3×3 grid at the corner cell, and a concrete move
staying in bounds. -/
theorem torus_moore_spec_witness :
    (mooreNeighborhood 3 3 ⟨0, 0⟩).length = 8 ∧
    (mooreNeighborhood 3 3 ⟨0, 0⟩).Nodup ∧
    ((MoneyAgent.move (initState 1 3 3 fun _ => ⟨0, 0⟩) 0 7).pos 0).x < 3 ∧
    ((MoneyAgent.move (initState 1 3 3 fun _ => ⟨0, 0⟩) 0 7).pos 0).y < 3 := by
  obtain ⟨h1, h2, _, h4⟩ := torus_moore_spec 3 3 ⟨0, 0⟩ (by norm_num) (by norm_num)
    (by norm_num) (by norm_num)
  exact ⟨h1, h2, h4 (initState 1 3 3 fun _ => ⟨0, 0⟩) 0 7 rfl rfl rfl⟩
